import Mathlib

/-!
Verification model of `rust-ingest` (src/main.rs).

The program walks a directory tree, filters out non-source artifacts,
classifies each surviving file for tree-listing and content-listing, and
writes a single digest document.  This file gives a shallow embedding of
that pipeline:

* strings are Lean `String`s (Rust `str` ordering is byte-wise over UTF-8,
  which coincides with code-point lexicographic order, modelled by
  `strLtB` below; Lean core `String.toLower` / `String.<` are avoided only
  because they are defined by well-founded recursion and do not reduce in
  the kernel — the structural replacements compute the same functions);
* a path is its list of components relative to the canonicalized root;
* the walker's override filtering (the `ignore` crate) is modelled by an
  ordered glob-override list with gitignore precedence: the *last* matching
  glob decides, and in whitelist mode an unmatched file is ignored;
* the per-entry loop of `main` (lines 91-112) is `processEntries`;
* `generate_tree` (lines 155-195) is modelled with a sorted association
  list standing for Rust's `BTreeMap`;
* `main`'s control flow is `runMain`, returning the printed lines and
  either the written digest, an error, or a panic.
-/

namespace RustIngest

/-! ## String order (Rust `str` `Ord`: byte-wise = code-point lexicographic) -/

/-- Lexicographic strict order on character lists, comparing code points.
This is the order Rust uses on `str` (byte-wise over UTF-8 equals
code-point order). -/
def listLtB : List Char → List Char → Bool
  | [], [] => false
  | [], _ :: _ => true
  | _ :: _, [] => false
  | a :: as, b :: bs =>
      if a.toNat < b.toNat then true
      else if b.toNat < a.toNat then false
      else listLtB as bs

/-- Strict order on strings: Rust `str::cmp`. -/
def strLtB (s t : String) : Bool := listLtB s.data t.data

theorem charEq_of_toNat {a b : Char} (h : a.toNat = b.toNat) : a = b :=
  Char.ext (UInt32.ext h)

theorem listLtB_irrefl (l : List Char) : listLtB l l = false := by
  induction l with
  | nil => rfl
  | cons a as ih => simp [listLtB, ih]

theorem listLtB_asymm {a b : List Char} (h : listLtB a b = true) :
    listLtB b a = false := by
  induction a generalizing b with
  | nil =>
    cases b with
    | nil => simp [listLtB] at h
    | cons x xs => simp [listLtB]
  | cons x xs ih =>
    cases b with
    | nil => simp [listLtB] at h
    | cons y ys =>
      simp only [listLtB] at h ⊢
      rcases Nat.lt_trichotomy x.toNat y.toNat with hlt | heq | hgt
      · simp [hlt, Nat.lt_asymm hlt, Nat.not_lt.mpr (Nat.le_of_lt hlt)]
      · simp only [heq, Nat.lt_irrefl, if_false] at h ⊢
        exact ih h
      · simp [hgt, Nat.not_lt.mpr (Nat.le_of_lt hgt)] at h

theorem listLtB_eq_of_not {a b : List Char} (hab : listLtB a b = false)
    (hba : listLtB b a = false) : a = b := by
  induction a generalizing b with
  | nil =>
    cases b with
    | nil => rfl
    | cons y ys => simp [listLtB] at hab
  | cons x xs ih =>
    cases b with
    | nil => simp [listLtB] at hba
    | cons y ys =>
      simp only [listLtB] at hab hba
      rcases Nat.lt_trichotomy x.toNat y.toNat with hlt | heq | hgt
      · simp [hlt] at hab
      · simp only [heq, Nat.lt_irrefl, if_false] at hab hba
        rw [charEq_of_toNat heq, ih hab hba]
      · simp [hgt] at hba

theorem listLtB_trans {a b c : List Char} (hab : listLtB a b = true)
    (hbc : listLtB b c = true) : listLtB a c = true := by
  induction a generalizing b c with
  | nil =>
    cases c with
    | nil =>
      cases b with
      | nil => simp [listLtB] at hab
      | cons y ys => simp [listLtB] at hbc
    | cons z zs => simp [listLtB]
  | cons x xs ih =>
    cases b with
    | nil => simp [listLtB] at hab
    | cons y ys =>
      cases c with
      | nil => simp [listLtB] at hbc
      | cons z zs =>
        simp only [listLtB] at hab hbc ⊢
        rcases Nat.lt_trichotomy x.toNat y.toNat with hxy | hxy | hxy
        · rcases Nat.lt_trichotomy y.toNat z.toNat with hyz | hyz | hyz
          · simp [Nat.lt_trans hxy hyz]
          · simp [hyz ▸ hxy]
          · simp [hyz, Nat.lt_asymm hyz, Nat.not_lt.mpr (Nat.le_of_lt hyz)] at hbc
        · rcases Nat.lt_trichotomy y.toNat z.toNat with hyz | hyz | hyz
          · simp [hxy ▸ hyz]
          · simp only [hxy, hyz, Nat.lt_irrefl, if_false] at hab hbc ⊢
            exact ih hab hbc
          · simp [hyz, Nat.lt_asymm hyz, Nat.not_lt.mpr (Nat.le_of_lt hyz)] at hbc
        · simp [hxy, Nat.lt_asymm hxy, Nat.not_lt.mpr (Nat.le_of_lt hxy)] at hab

theorem strLtB_eq_of_not {a b : String} (hab : strLtB a b = false)
    (hba : strLtB b a = false) : a = b :=
  String.ext (listLtB_eq_of_not hab hba)

theorem strLtB_asymm {a b : String} (h : strLtB a b = true) :
    strLtB b a = false := listLtB_asymm h

theorem strLtB_irrefl (a : String) : strLtB a a = false := listLtB_irrefl a.data

theorem strLtB_trans {a b c : String} (hab : strLtB a b = true)
    (hbc : strLtB b c = true) : strLtB a c = true := listLtB_trans hab hbc

/-! ## Paths -/

/-- A file path relative to the canonicalized root, as its component list
(Rust `PathBuf` of a relative path produced by `strip_prefix(&root)`). -/
abbrev FilePath' := List String

/-- `Path::display` of a relative path on Unix: components joined by `/`. -/
def displayPath (p : FilePath') : String := String.intercalate "/" p

/-- Non-strict componentwise path order: Rust's `Ord` for `Path`, which
compares the component sequences lexicographically (components by string
order).  This is the order used by `Vec::<PathBuf>::sort`. -/
def pathLeB : FilePath' → FilePath' → Bool
  | [], _ => true
  | _ :: _, [] => false
  | a :: as, b :: bs =>
      if strLtB a b then true
      else if strLtB b a then false
      else pathLeB as bs

/-- Propositional form of `pathLeB`, used as the sorting relation. -/
def pathLe (p q : FilePath') : Prop := pathLeB p q = true

instance : DecidableRel pathLe := fun p q => inferInstanceAs (Decidable (pathLeB p q = true))

theorem pathLeB_total (p q : FilePath') : pathLeB p q = true ∨ pathLeB q p = true := by
  induction p generalizing q with
  | nil => exact Or.inl rfl
  | cons a as ih =>
    cases q with
    | nil => exact Or.inr rfl
    | cons b bs =>
      simp only [pathLeB]
      rcases hab : strLtB a b with _ | _
      · rcases hba : strLtB b a with _ | _
        · have hEq : a = b := strLtB_eq_of_not hab hba
          subst hEq
          simpa [hab] using ih bs
        · simp
      · simp

theorem pathLeB_trans {p q r : FilePath'} (hpq : pathLeB p q = true)
    (hqr : pathLeB q r = true) : pathLeB p r = true := by
  induction p generalizing q r with
  | nil => rfl
  | cons a as ih =>
    cases q with
    | nil => simp [pathLeB] at hpq
    | cons b bs =>
      cases r with
      | nil => simp [pathLeB] at hqr
      | cons c cs =>
        simp only [pathLeB] at hpq hqr ⊢
        rcases hab : strLtB a b with _ | _ <;> rcases hbc : strLtB b c with _ | _
        · rcases hba : strLtB b a with _ | _ <;> rcases hcb : strLtB c b with _ | _
          · have h1 := strLtB_eq_of_not hab hba
            have h2 := strLtB_eq_of_not hbc hcb
            subst h1; subst h2
            simp only [hab, if_false] at hpq hqr ⊢
            exact ih hpq hqr
          · simp [hbc, hcb] at hqr
          · simp [hab, hba] at hpq
          · simp [hab, hba] at hpq
        · have h1 := strLtB_eq_of_not hab (by
            rcases hba : strLtB b a with _ | _
            · rfl
            · simp [hab, hba] at hpq)
          subst h1
          simp [hbc]
        · have h2 := strLtB_eq_of_not hbc (by
            rcases hcb : strLtB c b with _ | _
            · rfl
            · simp [hbc, hcb] at hqr)
          subst h2
          simp [hab]
        · simp [strLtB_trans hab hbc]

instance : IsTotal FilePath' pathLe := ⟨fun p q => pathLeB_total p q⟩

instance : IsTrans FilePath' pathLe := ⟨fun _ _ _ => pathLeB_trans⟩

/-- `Vec::sort` on `Vec<PathBuf>` (main.rs lines 114-115): a stable sort by
`Path`'s `Ord`.  `pathLe` is antisymmetric (ties only between equal paths),
so every sort by it produces the same list; we use insertion sort, which is
also stable. -/
def sortPaths (l : List FilePath') : List FilePath' := List.insertionSort pathLe l

/-! ## Extensions (Rust `Path::extension`, main.rs lines 98-104) -/

/-- Splits a character list at its last `'.'`: returns the part before and
after the last dot, or `none` when there is no dot. -/
def splitLastDot : List Char → Option (List Char × List Char)
  | [] => none
  | c :: cs =>
      match splitLastDot cs with
      | some (b, a) => some (c :: b, a)
      | none => if c = '.' then some ([], cs) else none

/-- Rust `Path::extension` on a file name: the portion after the last `'.'`
provided the portion before it is non-empty (so `".gitignore"` has no
extension, `"a.b.c"` has extension `"c"`, `"foo."` has extension `""`). -/
def rustExtension (name : String) : Option String :=
  match splitLastDot name.data with
  | some (before, after) => if before = [] then none else some ⟨after⟩
  | none => none

/-- ASCII lowercasing, character by character (Rust
`str::to_lowercase` restricted to ASCII; every built-in excluded extension
is ASCII). -/
def lowerStr (s : String) : String := ⟨s.data.map Char.toLower⟩

/-- main.rs lines 49-54. -/
def DEFAULT_EXCLUDED_EXTENSIONS : List String :=
  [".png", ".jpg", ".jpeg", ".gif", ".bmp", ".ico", ".webp", ".svg",
   ".woff", ".woff2", ".ttf", ".eot", ".otf",
   ".zip", ".gz", ".tar", ".rar", ".7z", ".pack",
   ".wasm", ".dll", ".exe", ".so", ".a", ".lib", ".bin", ".o", ".pdf"]

/-- The extension test of main.rs lines 98-104: the file's extension (of
the path's final component), lowercased and preceded by a dot, is looked up
in the excluded set; a file with no extension passes. -/
def extExcluded (p : FilePath') : Bool :=
  match p.getLast? with
  | none => false
  | some name =>
      match rustExtension name with
      | none => false
      | some ext => DEFAULT_EXCLUDED_EXTENSIONS.contains ("." ++ lowerStr ext)

/-! ## The per-entry loop of `main` (main.rs lines 84-112) -/

/-- One entry yielded by the walker: its path relative to the root
(`path.strip_prefix(&root)`), whether `entry.file_type()` is a regular
file, and the result of `entry.metadata().len()` (an `Err` models a
metadata failure, which `?` propagates). -/
structure Entry where
  relPath : FilePath'
  isFile : Bool
  size : Except String Nat

/-- The notice printed at main.rs line 101. -/
def extSkipMsg (p : FilePath') : String :=
  "  -> Skipping content for excluded extension: " ++ displayPath p

/-- The notice printed at main.rs line 107 (`max_size` is the KB value). -/
def sizeSkipMsg (p : FilePath') (max_size : Nat) : String :=
  "  -> Skipping content for large file: " ++ displayPath p ++
    " (>" ++ toString max_size ++ "KB)"

/-- The `for result in walker` loop of main.rs lines 91-112, with
`max_size_bytes = max_size * 1024` (line 88).  Returns the printed skip
notices together with either the pair `(tree_files, content_files)` in
encounter order, or the first error: a walker error is wrapped with the
`context` message of line 92, a metadata error is propagated by the `?` of
line 106, and either aborts the loop. -/
def processEntries (max_size : Nat) :
    List (Except String Entry) → List String × Except String (List FilePath' × List FilePath')
  | [] => ([], Except.ok ([], []))
  | Except.error msg :: _ =>
      ([], Except.error ("Failed to process a directory entry: " ++ msg))
  | Except.ok e :: rest =>
      if e.isFile then
        if extExcluded e.relPath then
          let (ns, r) := processEntries max_size rest
          (extSkipMsg e.relPath :: ns,
           r.map (fun tc => (e.relPath :: tc.1, tc.2)))
        else
          match e.size with
          | Except.error msg => ([], Except.error msg)
          | Except.ok n =>
              if n > max_size * 1024 then
                let (ns, r) := processEntries max_size rest
                (sizeSkipMsg e.relPath max_size :: ns,
                 r.map (fun tc => (e.relPath :: tc.1, tc.2)))
              else
                let (ns, r) := processEntries max_size rest
                (ns, r.map (fun tc => (e.relPath :: tc.1, e.relPath :: tc.2)))
      else processEntries max_size rest

theorem except_map_eq_ok {α β ε : Type} {f : α → β} {r : Except ε α} {b : β} :
    r.map f = Except.ok b ↔ ∃ a, r = Except.ok a ∧ f a = b := by
  cases r <;> simp [Except.map]

theorem processEntries_snd_nonfile {ms : Nat} {e : Entry}
    {rest : List (Except String Entry)} (hf : e.isFile = false) :
    processEntries ms (Except.ok e :: rest) = processEntries ms rest := by
  simp [processEntries, hf]

theorem processEntries_snd_ext {ms : Nat} {e : Entry}
    {rest : List (Except String Entry)} (hf : e.isFile = true)
    (hx : extExcluded e.relPath = true) :
    (processEntries ms (Except.ok e :: rest)).2 =
      (processEntries ms rest).2.map (fun tc => (e.relPath :: tc.1, tc.2)) := by
  simp [processEntries, hf, hx]

theorem processEntries_snd_metaerr {ms : Nat} {e : Entry}
    {rest : List (Except String Entry)} {m : String} (hf : e.isFile = true)
    (hx : extExcluded e.relPath = false) (hs : e.size = Except.error m) :
    (processEntries ms (Except.ok e :: rest)).2 = Except.error m := by
  simp [processEntries, hf, hx, hs]

theorem processEntries_snd_big {ms : Nat} {e : Entry}
    {rest : List (Except String Entry)} {n : Nat} (hf : e.isFile = true)
    (hx : extExcluded e.relPath = false) (hs : e.size = Except.ok n)
    (hn : n > ms * 1024) :
    (processEntries ms (Except.ok e :: rest)).2 =
      (processEntries ms rest).2.map (fun tc => (e.relPath :: tc.1, tc.2)) := by
  simp [processEntries, hf, hx, hs, hn]

theorem processEntries_snd_small {ms : Nat} {e : Entry}
    {rest : List (Except String Entry)} {n : Nat} (hf : e.isFile = true)
    (hx : extExcluded e.relPath = false) (hs : e.size = Except.ok n)
    (hn : ¬ n > ms * 1024) :
    (processEntries ms (Except.ok e :: rest)).2 =
      (processEntries ms rest).2.map (fun tc => (e.relPath :: tc.1, e.relPath :: tc.2)) := by
  simp [processEntries, hf, hx, hs, hn]

/-- Characterization of the tree listing: a path is pushed to `tree_files`
exactly when some successfully processed entry is a regular file at that
path (the push at main.rs line 96 is unconditional for files). -/
theorem mem_tree_iff {ms : Nat} {es : List (Except String Entry)}
    {t c : List FilePath'} (h : (processEntries ms es).2 = Except.ok (t, c))
    (p : FilePath') :
    p ∈ t ↔ ∃ e : Entry, Except.ok e ∈ es ∧ e.relPath = p ∧ e.isFile = true := by
  induction es generalizing t c with
  | nil =>
    simp only [processEntries, Except.ok.injEq, Prod.mk.injEq] at h
    obtain ⟨rfl, rfl⟩ := h
    simp
  | cons x rest ih =>
    cases x with
    | error msg => simp [processEntries] at h
    | ok e =>
      rcases hf : e.isFile with _ | _
      · rw [processEntries_snd_nonfile hf] at h
        rw [ih h]
        constructor
        · rintro ⟨e', he', rfl, hfe'⟩
          exact ⟨e', List.mem_cons_of_mem _ he', rfl, hfe'⟩
        · rintro ⟨e', he', rfl, hfe'⟩
          rcases List.mem_cons.mp he' with heq | hmem
          · cases Except.ok.inj heq
            exact absurd hfe' (by simp [hf])
          · exact ⟨e', hmem, rfl, hfe'⟩
      · have htree : ∃ t' c', (processEntries ms rest).2 = Except.ok (t', c') ∧
            t = e.relPath :: t' := by
          rcases hx : extExcluded e.relPath with _ | _
          · rcases hs : e.size with m | n
            · rw [processEntries_snd_metaerr hf hx hs] at h
              exact absurd h (by simp)
            · by_cases hn : n > ms * 1024
              · rw [processEntries_snd_big hf hx hs hn] at h
                obtain ⟨⟨t', c'⟩, hr, heq⟩ := except_map_eq_ok.mp h
                simp only [Prod.mk.injEq] at heq
                exact ⟨t', c', hr, heq.1.symm⟩
              · rw [processEntries_snd_small hf hx hs hn] at h
                obtain ⟨⟨t', c'⟩, hr, heq⟩ := except_map_eq_ok.mp h
                simp only [Prod.mk.injEq] at heq
                exact ⟨t', c', hr, heq.1.symm⟩
          · rw [processEntries_snd_ext hf hx] at h
            obtain ⟨⟨t', c'⟩, hr, heq⟩ := except_map_eq_ok.mp h
            simp only [Prod.mk.injEq] at heq
            exact ⟨t', c', hr, heq.1.symm⟩
        obtain ⟨t', c', hrest, rfl⟩ := htree
        constructor
        · intro hp
          rcases List.mem_cons.mp hp with rfl | hmem
          · exact ⟨e, List.mem_cons_self _ _, rfl, hf⟩
          · obtain ⟨e', he', rfl, hfe'⟩ := (ih hrest).mp hmem
            exact ⟨e', List.mem_cons_of_mem _ he', rfl, hfe'⟩
        · rintro ⟨e', he', rfl, hfe'⟩
          rcases List.mem_cons.mp he' with heq | hmem
          · cases Except.ok.inj heq
            exact List.mem_cons_self _ _
          · exact List.mem_cons_of_mem _ ((ih hrest).mpr ⟨e', hmem, rfl, hfe'⟩)

/-- Characterization of the content listing: a path is pushed to
`content_files` exactly when some successfully processed entry is a regular
file at that path whose extension is not excluded and whose size does not
exceed `max_size * 1024` (main.rs lines 98-110). -/
theorem mem_content_iff {ms : Nat} {es : List (Except String Entry)}
    {t c : List FilePath'} (h : (processEntries ms es).2 = Except.ok (t, c))
    (p : FilePath') :
    p ∈ c ↔ ∃ e : Entry, Except.ok e ∈ es ∧ e.relPath = p ∧ e.isFile = true ∧
      extExcluded p = false ∧ ∃ n, e.size = Except.ok n ∧ ¬ n > ms * 1024 := by
  induction es generalizing t c with
  | nil =>
    simp only [processEntries, Except.ok.injEq, Prod.mk.injEq] at h
    obtain ⟨rfl, rfl⟩ := h
    simp
  | cons x rest ih =>
    cases x with
    | error msg => simp [processEntries] at h
    | ok e =>
      rcases hf : e.isFile with _ | _
      · rw [processEntries_snd_nonfile hf] at h
        rw [ih h]
        constructor
        · rintro ⟨e', he', rfl, hrest⟩
          exact ⟨e', List.mem_cons_of_mem _ he', rfl, hrest⟩
        · rintro ⟨e', he', rfl, hfe', hrest⟩
          rcases List.mem_cons.mp he' with heq | hmem
          · cases Except.ok.inj heq
            exact absurd hfe' (by simp [hf])
          · exact ⟨e', hmem, rfl, hfe', hrest⟩
      · rcases hx : extExcluded e.relPath with _ | _
        · rcases hs : e.size with m | n
          · rw [processEntries_snd_metaerr hf hx hs] at h
            exact absurd h (by simp)
          · by_cases hn : n > ms * 1024
            · rw [processEntries_snd_big hf hx hs hn] at h
              obtain ⟨⟨t', c'⟩, hr, heq⟩ := except_map_eq_ok.mp h
              simp only [Prod.mk.injEq] at heq
              obtain ⟨h1, h2⟩ := heq
              subst h1; subst h2
              rw [ih hr]
              constructor
              · rintro ⟨e', he', rfl, hrest⟩
                exact ⟨e', List.mem_cons_of_mem _ he', rfl, hrest⟩
              · rintro ⟨e', he', rfl, hfe', hxe', n', hn', hle'⟩
                rcases List.mem_cons.mp he' with heq' | hmem
                · cases Except.ok.inj heq'
                  rw [hs] at hn'
                  cases Except.ok.inj hn'
                  exact absurd hn hle'
                · exact ⟨e', hmem, rfl, hfe', hxe', n', hn', hle'⟩
            · rw [processEntries_snd_small hf hx hs hn] at h
              obtain ⟨⟨t', c'⟩, hr, heq⟩ := except_map_eq_ok.mp h
              simp only [Prod.mk.injEq] at heq
              obtain ⟨h1, h2⟩ := heq
              subst h1; subst h2
              constructor
              · intro hp
                rcases List.mem_cons.mp hp with rfl | hmem
                · exact ⟨e, List.mem_cons_self _ _, rfl, hf, hx, n, hs, hn⟩
                · obtain ⟨e', he', rfl, hrest⟩ := (ih hr).mp hmem
                  exact ⟨e', List.mem_cons_of_mem _ he', rfl, hrest⟩
              · rintro ⟨e', he', rfl, hfe', hxe', n', hn', hle'⟩
                rcases List.mem_cons.mp he' with heq' | hmem
                · cases Except.ok.inj heq'
                  exact List.mem_cons_self _ _
                · exact List.mem_cons_of_mem _
                    ((ih hr).mpr ⟨e', hmem, rfl, hfe', hxe', n', hn', hle'⟩)
        · rw [processEntries_snd_ext hf hx] at h
          obtain ⟨⟨t', c'⟩, hr, heq⟩ := except_map_eq_ok.mp h
          simp only [Prod.mk.injEq] at heq
          obtain ⟨h1, h2⟩ := heq
          subst h1; subst h2
          rw [ih hr]
          constructor
          · rintro ⟨e', he', rfl, hrest⟩
            exact ⟨e', List.mem_cons_of_mem _ he', rfl, hrest⟩
          · rintro ⟨e', he', rfl, hfe', hxe', hrest⟩
            rcases List.mem_cons.mp he' with heq' | hmem
            · cases Except.ok.inj heq'
              exact absurd hxe' (by simp [hx])
            · exact ⟨e', hmem, rfl, hfe', hxe', hrest⟩

/-- An error anywhere in the walker stream makes the loop abort with an
error (main.rs line 92; a metadata failure at line 106 can abort it even
earlier). -/
theorem processEntries_error_of_mem {ms : Nat} {es : List (Except String Entry)}
    {msg : String} (hmem : Except.error msg ∈ es) :
    ∃ m, (processEntries ms es).2 = Except.error m := by
  induction es with
  | nil => cases hmem
  | cons x rest ih =>
    cases x with
    | error m0 => exact ⟨"Failed to process a directory entry: " ++ m0, rfl⟩
    | ok e =>
      have hmem' : Except.error msg ∈ rest := by
        rcases List.mem_cons.mp hmem with heq | hmem'
        · cases heq
        · exact hmem'
      obtain ⟨m, hm⟩ := ih hmem'
      rcases hf : e.isFile with _ | _
      · exact ⟨m, by rw [processEntries_snd_nonfile hf]; exact hm⟩
      · rcases hx : extExcluded e.relPath with _ | _
        · rcases hs : e.size with m0 | n
          · exact ⟨m0, processEntries_snd_metaerr hf hx hs⟩
          · by_cases hn : n > ms * 1024
            · exact ⟨m, by rw [processEntries_snd_big hf hx hs hn, hm]; rfl⟩
            · exact ⟨m, by rw [processEntries_snd_small hf hx hs hn, hm]; rfl⟩
        · exact ⟨m, by rw [processEntries_snd_ext hf hx, hm]; rfl⟩

/-! ## generate_tree (main.rs lines 155-195) -/

/-- The nested-map tree of `generate_tree`: a node holds a map from child
name to child node.  Rust's `BTreeMap<String, TreeNode>` is modelled as an
association list kept sorted by key (that is how a B-tree map stores and
iterates its entries). -/
inductive TreeNode where
  | node (children : List (String × TreeNode)) : TreeNode

def TreeNode.children : TreeNode → List (String × TreeNode)
  | node cs => cs

/-- `current_node.children.entry(part).or_default()` followed by the
descent `f` into that child (main.rs line 169): inserts into the
key-sorted association list, applying `f` to the existing child or to a
fresh default node. -/
def insertChild (key : String) (f : TreeNode → TreeNode) :
    List (String × TreeNode) → List (String × TreeNode)
  | [] => [(key, f (TreeNode.node []))]
  | (k, t) :: rest =>
      if strLtB key k then (key, f (TreeNode.node [])) :: (k, t) :: rest
      else if strLtB k key then (k, t) :: insertChild key f rest
      else (k, f t) :: rest

/-- The inner `for component in path.components()` loop of main.rs
lines 166-170: walk/create one node per component. -/
def insertPath : TreeNode → FilePath' → TreeNode
  | t, [] => t
  | TreeNode.node cs, part :: rest =>
      TreeNode.node (insertChild part (fun c => insertPath c rest) cs)

/-- The outer `for path in included_files` loop of main.rs lines 165-171. -/
def buildTree (included_files : List FilePath') : TreeNode :=
  included_files.foldl insertPath (TreeNode.node [])

mutual
/-- `build_string_recursive` (main.rs lines 174-188).  The `entries.sort_by`
at line 176 iterates a `BTreeMap`, whose iteration order is already
strictly increasing by key, so that (stable) sort is the identity there;
the model keeps children key-sorted (`insertChild`) and renders them in
stored order. -/
def buildStringRec : TreeNode → String → String
  | TreeNode.node cs, pre => renderEntries cs pre

/-- The `for (i, (name, child_node)) in entries.iter().enumerate()` loop of
main.rs lines 178-187; `i == entries.len() - 1` is `rest.isEmpty`. -/
def renderEntries : List (String × TreeNode) → String → String
  | [], _ => ""
  | (name, child) :: rest, pre =>
      pre ++ (if rest.isEmpty then "└── " else "├── ") ++ name ++ "\n" ++
      (if child.children.isEmpty then "" else
        buildStringRec child (pre ++ (if rest.isEmpty then "    " else "│   "))) ++
      renderEntries rest pre
end

/-- `generate_tree` (main.rs lines 155-195).  Its `root` parameter enters
only through `root.file_name()` at line 190, so the model takes that
directly: `none` models a root with no final path component (such as `/`),
on which `.unwrap()` panics — modelled by the `none` result.  Otherwise the
function returns `Ok` of the rendered tree (line 191-194). -/
def generate_tree (rootFileName : Option String) (included_files : List FilePath') :
    Option String :=
  match rootFileName with
  | none => none
  | some root_name =>
      some ("└── " ++ root_name ++ "/\n" ++ buildStringRec (buildTree included_files) "    ")

/-! ### Order-independence of the built tree -/

theorem strTrichotomy (a b : String) :
    (strLtB a b = true ∧ strLtB b a = false) ∨
    (a = b ∧ strLtB a b = false ∧ strLtB b a = false) ∨
    (strLtB b a = true ∧ strLtB a b = false) := by
  rcases hab : strLtB a b with _ | _
  · rcases hba : strLtB b a with _ | _
    · exact Or.inr (Or.inl ⟨strLtB_eq_of_not hab hba, rfl, rfl⟩)
    · exact Or.inr (Or.inr ⟨rfl, rfl⟩)
  · exact Or.inl ⟨rfl, strLtB_asymm hab⟩

theorem insertChild_same (k : String) (f g : TreeNode → TreeNode)
    (cs : List (String × TreeNode)) :
    insertChild k f (insertChild k g cs) = insertChild k (fun t => f (g t)) cs := by
  induction cs with
  | nil => simp [insertChild, strLtB_irrefl]
  | cons hd rest ih =>
    obtain ⟨k', t⟩ := hd
    rcases strTrichotomy k k' with ⟨h1, h2⟩ | ⟨rfl, h1, h2⟩ | ⟨h1, h2⟩
    · simp [insertChild, h1, h2, strLtB_irrefl]
    · simp [insertChild, strLtB_irrefl]
    · simp [insertChild, h1, h2, ih]

theorem insertChild_comm {k₁ k₂ : String} (f g : TreeNode → TreeNode)
    (hne : k₁ ≠ k₂) (cs : List (String × TreeNode)) :
    insertChild k₁ f (insertChild k₂ g cs) = insertChild k₂ g (insertChild k₁ f cs) := by
  induction cs with
  | nil =>
    rcases strTrichotomy k₁ k₂ with ⟨h1, h2⟩ | ⟨heq, h1, h2⟩ | ⟨h1, h2⟩
    · simp [insertChild, h1, h2]
    · exact absurd heq hne
    · simp [insertChild, h1, h2]
  | cons hd rest ih =>
    obtain ⟨k, t⟩ := hd
    rcases strTrichotomy k₁ k with ⟨ha1, ha2⟩ | ⟨rfl, ha1, ha2⟩ | ⟨ha1, ha2⟩
    · rcases strTrichotomy k₂ k with ⟨hb1, hb2⟩ | ⟨hbe, hb1, hb2⟩ | ⟨hb1, hb2⟩
      · rcases strTrichotomy k₁ k₂ with ⟨hc1, hc2⟩ | ⟨hce, hc1, hc2⟩ | ⟨hc1, hc2⟩
        · simp [insertChild, ha1, ha2, hb1, hb2, hc1, hc2]
        · exact absurd hce hne
        · simp [insertChild, ha1, ha2, hb1, hb2, hc1, hc2]
      · subst hbe
        simp [insertChild, ha1, ha2, strLtB_irrefl]
      · have hc1 : strLtB k₁ k₂ = true := strLtB_trans ha1 hb1
        simp [insertChild, ha1, ha2, hb1, hb2, hc1, strLtB_asymm hc1]
    · rcases strTrichotomy k₂ k₁ with ⟨hb1, hb2⟩ | ⟨hbe, hb1, hb2⟩ | ⟨hb1, hb2⟩
      · simp [insertChild, hb1, hb2, strLtB_irrefl]
      · exact absurd hbe.symm hne
      · simp [insertChild, hb1, hb2, strLtB_irrefl]
    · rcases strTrichotomy k₂ k with ⟨hb1, hb2⟩ | ⟨hbe, hb1, hb2⟩ | ⟨hb1, hb2⟩
      · have hc1 : strLtB k₂ k₁ = true := strLtB_trans hb1 ha1
        simp [insertChild, ha1, ha2, hb1, hb2, hc1, strLtB_asymm hc1]
      · subst hbe
        simp [insertChild, ha1, ha2, strLtB_irrefl]
      · simp [insertChild, ha1, ha2, hb1, hb2, ih]

theorem insertPath_nil (t : TreeNode) : insertPath t [] = t := by
  obtain ⟨cs⟩ := t
  rfl

theorem insertPath_comm (p : FilePath') : ∀ (q : FilePath') (t : TreeNode),
    insertPath (insertPath t p) q = insertPath (insertPath t q) p := by
  induction p with
  | nil => intro q t; simp [insertPath_nil]
  | cons a p' ih =>
    intro q t
    cases q with
    | nil => simp [insertPath_nil]
    | cons b q' =>
      obtain ⟨cs⟩ := t
      show TreeNode.node (insertChild b _ (insertChild a _ cs)) =
        TreeNode.node (insertChild a _ (insertChild b _ cs))
      by_cases hab : a = b
      · subst hab
        rw [insertChild_same, insertChild_same]
        have : (fun t => insertPath (insertPath t p') q') =
            (fun t => insertPath (insertPath t q') p') := funext fun t => ih q' t
        rw [this]
      · rw [insertChild_comm _ _ (Ne.symm hab)]

theorem insertPath_self (p : FilePath') : ∀ t : TreeNode,
    insertPath (insertPath t p) p = insertPath t p := by
  induction p with
  | nil => intro t; simp [insertPath_nil]
  | cons a p' ih =>
    intro t
    obtain ⟨cs⟩ := t
    show TreeNode.node (insertChild a _ (insertChild a _ cs)) = TreeNode.node (insertChild a _ cs)
    rw [insertChild_same]
    have : (fun t => insertPath (insertPath t p') p') = (fun t => insertPath t p') :=
      funext fun t => ih t
    rw [this]

theorem foldl_insertPath_pull (l : List FilePath') :
    ∀ (t : TreeNode) (p : FilePath'),
    List.foldl insertPath (insertPath t p) l = insertPath (List.foldl insertPath t l) p := by
  induction l with
  | nil => intro t p; rfl
  | cons q l' ih =>
    intro t p
    show List.foldl insertPath (insertPath (insertPath t p) q) l' =
      insertPath (List.foldl insertPath (insertPath t q) l') p
    rw [insertPath_comm p q t, ih]

theorem insertPath_foldl_of_mem {p : FilePath'} {l : List FilePath'} (hp : p ∈ l) :
    ∀ t : TreeNode, insertPath (List.foldl insertPath t l) p = List.foldl insertPath t l := by
  induction l with
  | nil => cases hp
  | cons q l' ih =>
    intro t
    rcases List.mem_cons.mp hp with rfl | hp'
    · show insertPath (List.foldl insertPath (insertPath t p) l') p =
        List.foldl insertPath (insertPath t p) l'
      rw [foldl_insertPath_pull, insertPath_self]
    · exact ih hp' (insertPath t q)

theorem foldl_insertPath_dedup (l : List FilePath') :
    ∀ t : TreeNode, List.foldl insertPath t l = List.foldl insertPath t l.dedup := by
  induction l with
  | nil => intro t; rfl
  | cons p l' ih =>
    intro t
    by_cases hp : p ∈ l'
    · rw [List.dedup_cons_of_mem hp]
      show List.foldl insertPath (insertPath t p) l' = List.foldl insertPath t l'.dedup
      rw [foldl_insertPath_pull, insertPath_foldl_of_mem hp, ih]
    · rw [List.dedup_cons_of_not_mem hp]
      show List.foldl insertPath (insertPath t p) l' =
        List.foldl insertPath (insertPath t p) l'.dedup
      exact ih (insertPath t p)

theorem buildTree_eq_of_same_mem {l₁ l₂ : List FilePath'}
    (h : ∀ p, p ∈ l₁ ↔ p ∈ l₂) : buildTree l₁ = buildTree l₂ := by
  unfold buildTree
  rw [foldl_insertPath_dedup l₁, foldl_insertPath_dedup l₂]
  have hperm : l₁.dedup.Perm l₂.dedup :=
    (List.perm_ext_iff_of_nodup (List.nodup_dedup l₁) (List.nodup_dedup l₂)).mpr
      (fun a => by rw [List.mem_dedup, List.mem_dedup]; exact h a)
  letI : RightCommutative insertPath := ⟨fun t p q => insertPath_comm p q t⟩
  exact hperm.foldl_eq _

/-! ## Override patterns and the walker (main.rs lines 65-82)

The override list is compiled by the `ignore` crate
(`ignore::overrides::OverrideBuilder`), whose documented semantics are:
`add(glob)` whitelists, `add("!glob")` ignores; the globs form a
gitignore-style matcher in which, among the globs matching a path, the
*last-added* one decides; a glob written with a trailing `/` matches
directories only; and when at least one whitelist glob exists, a
non-directory path matching no glob at all is ignored
(`Override::matched`).  A glob is modelled extensionally: a Boolean
predicate on relative component paths plus the directory-only flag. -/

structure Pat where
  test : FilePath' → Bool
  onlyDir : Bool

/-- One compiled override glob: its pattern and whether it whitelists
(added as `pattern`) or ignores (added as `!pattern`). -/
structure OvGlob where
  pat : Pat
  whitelist : Bool

/-- A gitignore glob that is a literal name without `/`: it matches any
path whose final component equals the name. -/
def basenamePat (name : String) (onlyDir : Bool) : Pat :=
  { test := fun p => p.getLast? == some name, onlyDir := onlyDir }

/-- main.rs lines 37-40; the trailing `/` of each source pattern makes the
glob directory-only. -/
def DEFAULT_IGNORED_DIRS : List Pat :=
  ([".git", ".github", ".vscode", ".idea", "venv", ".env", "node_modules",
    ".next", "out", "__pycache__", "target", "pkg", "build", "dist",
    "coverage"]).map (fun n => basenamePat n true)

/-- main.rs lines 42-47. -/
def DEFAULT_IGNORED_FILES : List Pat :=
  (["pnpm-lock.yaml", "package-lock.json", "yarn.lock", "Cargo.lock",
    ".tsbuildinfo", ".DS_Store", "components.json", "biome.json",
    "next-env.d.ts", ".gitignore", ".prettierrc.json", "LICENSE", ".nvmrc",
    ".npmrc", ".eslintrc.json", ".prettierignore", "vercel.json"]).map
    (fun n => basenamePat n false)

/-- The override build order of main.rs lines 65-78: built-in ignored dirs
and files negated, then the output file name negated, then user excludes
negated, then (when any) user includes as positive patterns. -/
def buildOverrides (includes excludes : List Pat) (outputPat : Pat) : List OvGlob :=
  (DEFAULT_IGNORED_DIRS ++ DEFAULT_IGNORED_FILES).map (fun p => ⟨p, false⟩) ++
  [⟨outputPat, false⟩] ++
  excludes.map (fun p => ⟨p, false⟩) ++
  (if includes.isEmpty then [] else includes.map (fun p => ⟨p, true⟩))

inductive OvMatch where
  | whitelisted
  | ignored
  | unmatched

/-- Whether a glob matches a path: its pattern holds, and a directory-only
glob only matches directories. -/
def matchGlob (g : OvGlob) (p : FilePath') (isDir : Bool) : Bool :=
  g.pat.test p && (!g.pat.onlyDir || isDir)

/-- `Override::matched` of the `ignore` crate: the latest-added matching
glob decides; with at least one whitelist glob, an unmatched
non-directory is ignored; an empty override set matches nothing. -/
def overrideMatched (ovs : List OvGlob) (p : FilePath') (isDir : Bool) : OvMatch :=
  if ovs.isEmpty then OvMatch.unmatched
  else
    match ovs.reverse.find? (fun g => matchGlob g p isDir) with
    | some g => if g.whitelist then OvMatch.whitelisted else OvMatch.ignored
    | none =>
        if ovs.any (fun g => g.whitelist) && !isDir then OvMatch.ignored
        else OvMatch.unmatched

def isIgnoredMatch : OvMatch → Bool
  | OvMatch.ignored => true
  | _ => false

/-- The proper ancestor directories of a relative file path. -/
def ancestorsOf : FilePath' → List FilePath'
  | [] => []
  | [_] => []
  | x :: rest => [x] :: (ancestorsOf rest).map (fun q => x :: q)

/-- Whether the walker yields a regular file at relative path `p`: neither
the file itself nor any ancestor directory is ignored by the overrides
(an ignored directory is pruned, so nothing below it is visited). -/
def walkerYields (ovs : List OvGlob) (p : FilePath') : Bool :=
  !p.isEmpty &&
  !(isIgnoredMatch (overrideMatched ovs p false)) &&
  (ancestorsOf p).all (fun q => !(isIgnoredMatch (overrideMatched ovs q true)))

/-- A regular file pre-existing under the root. -/
structure FsFile where
  relPath : FilePath'
  size : Nat

/-- The walker's yield stream over a filesystem containing exactly the
given regular files, none hidden and with no ignore-files, so the standard
filters pass everything (they could only remove further files, never add
one): every file passing the override filter becomes one `Ok` entry whose
metadata succeeds. -/
def discoverEntries (ovs : List OvGlob) (fs : List FsFile) : List (Except String Entry) :=
  (fs.filter (fun f => walkerYields ovs f.relPath)).map
    (fun f => Except.ok { relPath := f.relPath, isFile := true, size := Except.ok f.size })

/-- The two sorted listings a run produces (main.rs lines 86-115): the
per-entry loop over the walker's stream, then the two sorts. -/
def runListings (ovs : List OvGlob) (max_size : Nat) (fs : List FsFile) :
    Except String (List FilePath' × List FilePath') :=
  (processEntries max_size (discoverEntries ovs fs)).2.map
    (fun tc => (sortPaths tc.1, sortPaths tc.2))

/-! ## Content rendering, digest and main control flow (main.rs 117-152) -/

/-- `"=".repeat(60)` (main.rs lines 130 and 133). -/
def sep60 : String := ⟨List.replicate 60 '='⟩

/-- Rust `str::trim` restricted to ASCII whitespace: drop whitespace from
both ends (main.rs line 136). -/
def trimStr (s : String) : String :=
  ⟨((s.data.dropWhile Char.isWhitespace).reverse.dropWhile Char.isWhitespace).reverse⟩

/-- One file block of the content section (main.rs lines 129-140):
separator, `FILE:` header, separator, then the trimmed text or the
read-error placeholder, then three newlines (`push_str("\n\n\n")`). -/
def fileBlock (reads : FilePath' → Except String String) (p : FilePath') : String :=
  sep60 ++ "\n" ++ "FILE: " ++ displayPath p ++ "\n" ++ sep60 ++ "\n" ++
  (match reads p with
   | Except.ok contents => trimStr contents
   | Except.error e => "[Could not read file: " ++ e ++ "]") ++ "\n\n\n"

/-- The content-concatenation loop of main.rs lines 128-140, in listing
order. -/
def concatContent (reads : FilePath' → Except String String) :
    List FilePath' → String
  | [] => ""
  | p :: ps => fileBlock reads p ++ concatContent reads ps

/-- The digest document written at main.rs lines 146-149 (`writeln!`
appends one newline to each of its three lines). -/
def digestDoc (tree_structure content : String) : String :=
  "Directory structure:\n" ++ tree_structure ++ "\n" ++
  "\n\nFiles Content:\n" ++ "\n" ++ content

/-- How the process ends: `Ok(())` with the digest written (or none
written on the empty-discovery early return), `Err` (non-zero exit), or a
panic (the `unwrap` in `generate_tree`). -/
inductive MainResult where
  | success (written : Option String)
  | error (msg : String)
  | panicked

/-- The observable outcome of `main`: the lines printed to stdout, and the
result. -/
structure MainOutput where
  stdout : List String
  result : MainResult

def discoveringMsg : String := "Discovering files..."

def foundMsg (t c : Nat) : String :=
  "Found " ++ toString t ++ " files for tree, " ++ toString c ++ " files for content."

def noFilesMsg : String := "No files to include based on current criteria. Exiting."

def generatingMsg : String := "Generating directory tree..."

def readingMsg (n : Nat) : String :=
  "Reading and concatenating " ++ toString n ++ " files..."

def writingMsg (out : String) : String := "Writing output to " ++ out ++ "..."

def doneMsg (out : String) : String := "All done. Digest saved to " ++ out

/-- `main` from the walker loop on (main.rs lines 84-152), given the
walker's entry stream, the root's final path component (`none` when the
canonicalized root has none, e.g. `/`), the output file name and the
filesystem's read results.  File creation and writing are assumed to
succeed; the digest text carried by `MainResult.success` is what gets
written. -/
def runMain (rootFileName : Option String) (output : String) (max_size : Nat)
    (entries : List (Except String Entry))
    (reads : FilePath' → Except String String) : MainOutput :=
  let nr := processEntries max_size entries
  match nr.2 with
  | Except.error msg => ⟨discoveringMsg :: nr.1, MainResult.error msg⟩
  | Except.ok tc =>
      let tree_files := sortPaths tc.1
      let content_files := sortPaths tc.2
      let msgs := discoveringMsg :: nr.1 ++
        [foundMsg tree_files.length content_files.length]
      if tree_files.isEmpty then
        ⟨msgs ++ [noFilesMsg], MainResult.success Option.none⟩
      else
        match generate_tree rootFileName tree_files with
        | Option.none => ⟨msgs ++ [generatingMsg], MainResult.panicked⟩
        | Option.some tree_structure =>
            ⟨msgs ++ [generatingMsg, readingMsg content_files.length,
                      writingMsg output, doneMsg output],
             MainResult.success
               (Option.some (digestDoc tree_structure (concatContent reads content_files)))⟩

/-! ### Helper lemmas for the pipeline -/

theorem mem_sortPaths {p : FilePath'} {l : List FilePath'} :
    p ∈ sortPaths l ↔ p ∈ l := (List.perm_insertionSort pathLe l).mem_iff

theorem sortPaths_eq_nil_iff {l : List FilePath'} : sortPaths l = [] ↔ l = [] := by
  constructor
  · intro h
    unfold sortPaths at h
    have hperm := List.perm_insertionSort pathLe l
    rw [h] at hperm
    exact hperm.symm.eq_nil
  · rintro rfl
    rfl

theorem concatContent_append (reads : FilePath' → Except String String)
    (l₁ l₂ : List FilePath') :
    concatContent reads (l₁ ++ l₂) =
      concatContent reads l₁ ++ concatContent reads l₂ := by
  induction l₁ with
  | nil => simp [concatContent]
  | cons p ps ih => simp [concatContent, ih, String.append_assoc]

theorem find?_exists_some {α : Type} {q : α → Bool} {l : List α}
    (h : ∃ x ∈ l, q x = true) :
    ∃ g, l.find? q = some g ∧ q g = true ∧ g ∈ l := by
  obtain ⟨g, hg⟩ := Option.isSome_iff_exists.mp (List.find?_isSome.mpr h)
  exact ⟨g, hg, List.find?_some hg, List.mem_of_find?_eq_some hg⟩

/-- Every whitelist glob of the built override list is a user include
pattern. -/
theorem whitelist_mem_buildOverrides {includes excludes : List Pat} {outputPat : Pat}
    {g : OvGlob} (hg : g ∈ buildOverrides includes excludes outputPat)
    (hwl : g.whitelist = true) : ∃ pt ∈ includes, g.pat = pt := by
  unfold buildOverrides at hg
  rcases List.mem_append.mp hg with h1 | h2
  · rcases List.mem_append.mp h1 with h3 | h4
    · rcases List.mem_append.mp h3 with h5 | h6
      · obtain ⟨p', _, rfl⟩ := List.mem_map.mp h5
        simp at hwl
      · have := List.mem_singleton.mp h6
        subst this
        simp at hwl
    · obtain ⟨p', _, rfl⟩ := List.mem_map.mp h4
      simp at hwl
  · by_cases hinc : includes.isEmpty
    · rw [if_pos hinc] at h2
      cases h2
    · rw [if_neg hinc] at h2
      obtain ⟨p', hp', rfl⟩ := List.mem_map.mp h2
      exact ⟨p', hp', rfl⟩

/-- The `!output` glob is always part of the built override list. -/
theorem output_glob_mem_buildOverrides (includes excludes : List Pat) (outputPat : Pat) :
    (⟨outputPat, false⟩ : OvGlob) ∈ buildOverrides includes excludes outputPat := by
  unfold buildOverrides
  exact List.mem_append_left _ (List.mem_append_left _
    (List.mem_append_right _ (List.mem_singleton_self _)))

/-- When no user include pattern matches the output path, the override set
ignores it: the `!output` glob matches the path, and every matching glob
added after it is also an ignore glob. -/
theorem overrideMatched_output_ignored {includes excludes : List Pat}
    {outputPat : Pat} {outPath : FilePath'}
    (houtMatch : outputPat.test outPath = true) (houtFile : outputPat.onlyDir = false)
    (hinc : ∀ pt ∈ includes, pt.test outPath = false) :
    overrideMatched (buildOverrides includes excludes outputPat) outPath false =
      OvMatch.ignored := by
  have hmem_out : (⟨outputPat, false⟩ : OvGlob) ∈ buildOverrides includes excludes outputPat :=
    output_glob_mem_buildOverrides includes excludes outputPat
  have hne : (buildOverrides includes excludes outputPat).isEmpty = false :=
    List.isEmpty_eq_false.mpr (List.ne_nil_of_mem hmem_out)
  have hexists : ∃ x ∈ (buildOverrides includes excludes outputPat).reverse,
      matchGlob x outPath false = true := by
    refine ⟨⟨outputPat, false⟩, List.mem_reverse.mpr hmem_out, ?_⟩
    simp [matchGlob, houtMatch, houtFile]
  obtain ⟨g, hfind, hq, hmem⟩ := find?_exists_some hexists
  have hgw : g.whitelist = false := by
    rcases hw : g.whitelist with _ | _
    · rfl
    · obtain ⟨pt, hpt, hgp⟩ :=
        whitelist_mem_buildOverrides (List.mem_reverse.mp hmem) hw
      have hq' := hq
      simp only [matchGlob, Bool.and_eq_true] at hq'
      obtain ⟨htest, -⟩ := hq'
      rw [hgp, hinc pt hpt] at htest
      cases htest
  unfold overrideMatched
  rw [hne]
  simp only [Bool.false_eq_true, if_false]
  rw [hfind]
  simp [hgw]

/-- A file at a path the overrides ignore is not yielded by the walker. -/
theorem walkerYields_output_false {includes excludes : List Pat}
    {outputPat : Pat} {outPath : FilePath'}
    (houtMatch : outputPat.test outPath = true) (houtFile : outputPat.onlyDir = false)
    (hinc : ∀ pt ∈ includes, pt.test outPath = false) :
    walkerYields (buildOverrides includes excludes outputPat) outPath = false := by
  unfold walkerYields
  rw [overrideMatched_output_ignored houtMatch houtFile hinc]
  simp [isIgnoredMatch]

/-- Every entry of the walker's stream passes the override filter. -/
theorem walkerYields_of_mem_discover {ovs : List OvGlob} {fs : List FsFile} {e : Entry}
    (h : Except.ok e ∈ discoverEntries ovs fs) :
    walkerYields ovs e.relPath = true := by
  unfold discoverEntries at h
  obtain ⟨f, hf, heq⟩ := List.mem_map.mp h
  cases Except.ok.inj heq
  exact (List.mem_filter.mp hf).2

/-- Plain byte/character non-strict string order (`a ≤ b` iff not `b < a`
under `strLtB`), as used by the spec's phrase "plain byte/character string
comparison". -/
def strLeB (a b : String) : Bool := !(strLtB b a)

/-- The digest text produced by a successful non-empty run: shared shape
lemma for the claims about `runMain`. -/
theorem runMain_result_of_ok {rname output : String} {ms : Nat}
    {es : List (Except String Entry)} {reads : FilePath' → Except String String}
    {t c : List FilePath'}
    (h : (processEntries ms es).2 = Except.ok (t, c)) (ht : t ≠ []) :
    (runMain (Option.some rname) output ms es reads).result =
      MainResult.success (Option.some (digestDoc
        ("└── " ++ rname ++ "/\n" ++ buildStringRec (buildTree (sortPaths t)) "    ")
        (concatContent reads (sortPaths c)))) := by
  simp only [runMain]
  rw [h]
  have hs : (sortPaths t).isEmpty = false :=
    List.isEmpty_eq_false.mpr (fun hh => ht (sortPaths_eq_nil_iff.mp hh))
  simp [hs, generate_tree]

/-! ## The claims -/

/-- C1 counterexample: the claim says a user include pattern can never
cause the output file to be discovered.  But the `!output` override glob is
added *before* the user include patterns, and the latest-added matching
glob wins, so the run with include pattern `digest.txt`, output name
`digest.txt`, and a pre-existing 5-byte `digest.txt` in the root puts
`digest.txt` into both listings. -/
theorem c1_counterexample :
    ∃ t c, runListings
        (buildOverrides [basenamePat "digest.txt" false] []
          (basenamePat "digest.txt" false)) 100
        [⟨["digest.txt"], 5⟩] = Except.ok (t, c) ∧
      ["digest.txt"] ∈ t ∧ ["digest.txt"] ∈ c :=
  ⟨[["digest.txt"]], [["digest.txt"]], rfl,
    List.mem_singleton_self _, List.mem_singleton_self _⟩

/-- C1 (amended): the output path is absent from both listings in every
run in which no user include pattern matches it (the unamended claim fails
exactly when a user include pattern matches the output file name, since
includes are added after the `!output` glob and the latest matching glob
wins). -/
theorem c1_output_excluded_amended {includes excludes : List Pat} {outputPat : Pat}
    {outPath : FilePath'} {ms : Nat} {fs : List FsFile} {t c : List FilePath'}
    (houtMatch : outputPat.test outPath = true) (houtFile : outputPat.onlyDir = false)
    (hinc : ∀ pt ∈ includes, pt.test outPath = false)
    (h : runListings (buildOverrides includes excludes outputPat) ms fs =
      Except.ok (t, c)) :
    outPath ∉ t ∧ outPath ∉ c := by
  unfold runListings at h
  obtain ⟨⟨t₀, c₀⟩, hpe, heq⟩ := except_map_eq_ok.mp h
  simp only [Prod.mk.injEq] at heq
  obtain ⟨h1, h2⟩ := heq
  subst h1; subst h2
  have hyield : ∀ e : Entry,
      Except.ok e ∈ discoverEntries (buildOverrides includes excludes outputPat) fs →
      e.relPath ≠ outPath := by
    intro e he hcontra
    have hy := walkerYields_of_mem_discover he
    rw [hcontra, walkerYields_output_false houtMatch houtFile hinc] at hy
    exact Bool.noConfusion hy
  constructor
  · intro hin
    rw [mem_sortPaths] at hin
    obtain ⟨e, hmem, hrel, -⟩ := (mem_tree_iff hpe outPath).mp hin
    exact hyield e hmem hrel
  · intro hin
    rw [mem_sortPaths] at hin
    obtain ⟨e, hmem, hrel, -⟩ := (mem_content_iff hpe outPath).mp hin
    exact hyield e hmem hrel

/-- C1 witness: a default run (no includes) over a root already containing
a 5-byte `digest.txt` keeps `digest.txt` out of both listings. -/
theorem c1_witness :
    (["digest.txt"] : FilePath') ∉ ([] : List FilePath') ∧
    (["digest.txt"] : FilePath') ∉ ([] : List FilePath') :=
  @c1_output_excluded_amended [] [] (basenamePat "digest.txt" false)
    ["digest.txt"] 100 [⟨["digest.txt"], 5⟩] [] [] rfl rfl
    (fun pt hpt => absurd hpt (List.not_mem_nil pt)) rfl

/-- C2: every path in the content listing also appears in the tree listing
(content inclusion is a subset of tree inclusion). -/
theorem c2_content_subset_tree {ms : Nat} {es : List (Except String Entry)}
    {t c : List FilePath'} (h : (processEntries ms es).2 = Except.ok (t, c)) :
    ∀ p ∈ sortPaths c, p ∈ sortPaths t := by
  intro p hp
  rw [mem_sortPaths] at hp ⊢
  obtain ⟨e, hmem, rfl, hf, -, -⟩ := (mem_content_iff h p).mp hp
  exact (mem_tree_iff h e.relPath).mpr ⟨e, hmem, rfl, hf⟩

/-- C2 witness: a run over a text file and a `.png` file (content-excluded
by extension): the content listing is contained in the tree listing. -/
theorem c2_witness :
    (["a.txt"] : FilePath') ∈ sortPaths [(["a.txt"] : FilePath'), ["b.png"]] :=
  @c2_content_subset_tree 100
    [Except.ok ⟨["a.txt"], true, Except.ok 3⟩,
     Except.ok ⟨["b.png"], true, Except.ok 3⟩]
    [["a.txt"], ["b.png"]] [["a.txt"]] rfl
    ["a.txt"] (by decide)

/-- C3: for a discovered file with non-excluded extension, content
inclusion is a strict greater-than test against `max_size * 1024`: exactly
`max_size` KiB is included, one byte more is excluded. -/
theorem c3_size_threshold {ms : Nat} {es : List (Except String Entry)}
    {t c : List FilePath'} {e : Entry}
    (h : (processEntries ms es).2 = Except.ok (t, c))
    (hmem : Except.ok e ∈ es) (hf : e.isFile = true)
    (hx : extExcluded e.relPath = false)
    (huniq : ∀ e' : Entry, Except.ok e' ∈ es → e'.relPath = e.relPath →
      e'.size = e.size) :
    (e.size = Except.ok (ms * 1024) → e.relPath ∈ sortPaths c) ∧
    (e.size = Except.ok (ms * 1024 + 1) → e.relPath ∉ sortPaths c) := by
  constructor
  · intro hsize
    rw [mem_sortPaths]
    exact (mem_content_iff h e.relPath).mpr
      ⟨e, hmem, rfl, hf, hx, ms * 1024, hsize, by omega⟩
  · intro hsize hin
    rw [mem_sortPaths] at hin
    obtain ⟨e', hmem', hrel, -, -, n, hn, hle⟩ := (mem_content_iff h e.relPath).mp hin
    rw [huniq e' hmem' hrel, hsize] at hn
    cases Except.ok.inj hn
    omega

/-- C3 witness: with the default `max_size = 100`, a 102400-byte file is
in the content listing and a 102401-byte file is not. -/
theorem c3_witness :
    (["a.txt"] : FilePath') ∈ sortPaths [(["a.txt"] : FilePath')] ∧
    (["b.txt"] : FilePath') ∉ sortPaths [(["a.txt"] : FilePath')] := by
  constructor
  · exact (@c3_size_threshold 100
      [Except.ok ⟨["a.txt"], true, Except.ok 102400⟩,
       Except.ok ⟨["b.txt"], true, Except.ok 102401⟩]
      [["a.txt"], ["b.txt"]] [["a.txt"]]
      ⟨["a.txt"], true, Except.ok 102400⟩ rfl
      (List.Mem.head _) rfl rfl
      (by
        intro e' h' hrel
        rcases List.mem_cons.mp h' with heq | h''
        · cases Except.ok.inj heq; rfl
        · rcases List.mem_cons.mp h'' with heq | h'''
          · cases Except.ok.inj heq
            exact absurd hrel (by decide)
          · cases h''')).1 rfl
  · exact (@c3_size_threshold 100
      [Except.ok ⟨["a.txt"], true, Except.ok 102400⟩,
       Except.ok ⟨["b.txt"], true, Except.ok 102401⟩]
      [["a.txt"], ["b.txt"]] [["a.txt"]]
      ⟨["b.txt"], true, Except.ok 102401⟩ rfl
      (List.Mem.tail _ (List.Mem.head _)) rfl rfl
      (by
        intro e' h' hrel
        rcases List.mem_cons.mp h' with heq | h''
        · cases Except.ok.inj heq
          exact absurd hrel (by decide)
        · rcases List.mem_cons.mp h'' with heq | h'''
          · cases Except.ok.inj heq; rfl
          · cases h''')).2 rfl

/-- C4: a discovered file whose lowercased dotted extension is in the
built-in excluded set never reaches the content listing, regardless of its
size and of the extension's case in the file name. -/
theorem c4_excluded_extension {ms : Nat} {es : List (Except String Entry)}
    {t c : List FilePath'} {p : FilePath'}
    (h : (processEntries ms es).2 = Except.ok (t, c))
    (hx : extExcluded p = true) : p ∉ sortPaths c := by
  intro hin
  rw [mem_sortPaths] at hin
  obtain ⟨e, -, -, -, hxe, -⟩ := (mem_content_iff h p).mp hin
  rw [hx] at hxe
  exact Bool.noConfusion hxe

/-- C4 witness: a tiny `img.PNG` (upper-case extension, lowercased to
`.png`) is kept out of the content listing. -/
theorem c4_witness : (["img.PNG"] : FilePath') ∉ sortPaths ([] : List FilePath') :=
  @c4_excluded_extension 100
    [Except.ok ⟨["img.PNG"], true, Except.ok 3⟩]
    [["img.PNG"]] [] ["img.PNG"] rfl rfl

/-- C5 counterexample: the listings are sorted by `Path`'s componentwise
order, not by plain string comparison of the displayed relative paths: in
a run over files `a-b` and `a/b`, the sorted tree listing is
`[a/b, a-b]`, whose adjacent displayed strings satisfy `"a/b" ≤ "a-b"` in
neither direction of the claim (`'-' < '/'` byte-wise, so
`"a-b" < "a/b"` as plain strings while the path order puts `a/b` first). -/
theorem c5_counterexample :
    ∃ t c, (processEntries 100
        [Except.ok ⟨["a-b"], true, Except.ok 1⟩,
         Except.ok ⟨["a", "b"], true, Except.ok 1⟩]).2 = Except.ok (t, c) ∧
      sortPaths t = [["a", "b"], ["a-b"]] ∧
      strLeB (displayPath ["a", "b"]) (displayPath ["a-b"]) = false :=
  ⟨[["a-b"], ["a", "b"]], [["a-b"], ["a", "b"]], rfl, rfl, rfl⟩

/-- C5 (amended): after discovery both listings are sorted by Rust's
`Path` ordering — lexicographic over the component sequences, components
compared as strings — which differs from plain string comparison of the
displayed paths exactly when a `/` boundary competes with a lower byte. -/
theorem c5_sorted_componentwise {ms : Nat} {es : List (Except String Entry)}
    {t c : List FilePath'}
    (_h : (processEntries ms es).2 = Except.ok (t, c)) :
    List.Chain' pathLe (sortPaths t) ∧ List.Chain' pathLe (sortPaths c) :=
  ⟨List.chain'_iff_pairwise.mpr (List.sorted_insertionSort pathLe t),
   List.chain'_iff_pairwise.mpr (List.sorted_insertionSort pathLe c)⟩

/-- C5 witness: the run of the counterexample is chain-sorted in the
componentwise path order. -/
theorem c5_witness :
    List.Chain' pathLe (sortPaths [(["a-b"] : FilePath'), ["a", "b"]]) ∧
    List.Chain' pathLe (sortPaths [(["a-b"] : FilePath'), ["a", "b"]]) :=
  @c5_sorted_componentwise 100
    [Except.ok ⟨["a-b"], true, Except.ok 1⟩,
     Except.ok ⟨["a", "b"], true, Except.ok 1⟩]
    [["a-b"], ["a", "b"]] [["a-b"], ["a", "b"]] rfl

/-- C6: tree rendering is a pure function of the set of relative paths:
two input lists with the same members (any order, any duplication) render
identically for every root. -/
theorem c6_generate_tree_set_function (rootFileName : Option String)
    (ps qs : List FilePath') (h : ∀ p, p ∈ ps ↔ p ∈ qs) :
    generate_tree rootFileName ps = generate_tree rootFileName qs := by
  unfold generate_tree
  cases rootFileName with
  | none => rfl
  | some rn => rw [buildTree_eq_of_same_mem h]

/-- C6 witness: a permuted, duplicated path list renders the same tree. -/
theorem c6_witness :
    generate_tree (Option.some "root")
        [["src", "main.rs"], ["README.md"], ["src", "main.rs"]] =
      generate_tree (Option.some "root")
        [["README.md"], ["src", "main.rs"]] :=
  c6_generate_tree_set_function _ _ _ (by
    intro p
    simp only [List.mem_cons, List.not_mem_nil, or_false]
    tauto)

/-- C7: a file of the content listing whose read fails still yields a
digest: the run succeeds, writes the output, and the digest contains that
file's header block with the read-error placeholder in place of its
content. -/
theorem c7_read_error_placeholder {rname output : String} {ms : Nat}
    {es : List (Except String Entry)} {reads : FilePath' → Except String String}
    {t c : List FilePath'} {p : FilePath'} {e : String}
    (h : (processEntries ms es).2 = Except.ok (t, c)) (hp : p ∈ c)
    (hread : reads p = Except.error e) :
    ∃ d, (runMain (Option.some rname) output ms es reads).result =
        MainResult.success (Option.some d) ∧
      ∃ pre post, d = pre ++ fileBlock reads p ++ post ∧
        fileBlock reads p =
          sep60 ++ "\n" ++ "FILE: " ++ displayPath p ++ "\n" ++ sep60 ++ "\n" ++
          "[Could not read file: " ++ e ++ "]" ++ "\n\n\n" := by
  have hpt : p ∈ t := by
    obtain ⟨e', hmem, rfl, hf, -, -⟩ := (mem_content_iff h p).mp hp
    exact (mem_tree_iff h e'.relPath).mpr ⟨e', hmem, rfl, hf⟩
  have ht : t ≠ [] := List.ne_nil_of_mem hpt
  refine ⟨_, runMain_result_of_ok h ht, ?_⟩
  have hps : p ∈ sortPaths c := mem_sortPaths.mpr hp
  obtain ⟨l1, l2, hsplit⟩ := List.append_of_mem hps
  refine ⟨"Directory structure:\n" ++
      ("└── " ++ rname ++ "/\n" ++ buildStringRec (buildTree (sortPaths t)) "    ") ++
      "\n" ++ "\n\nFiles Content:\n" ++ "\n" ++ concatContent reads l1,
    concatContent reads l2, ?_, ?_⟩
  · rw [digestDoc, hsplit, concatContent_append]
    simp only [concatContent, String.append_assoc]
  · unfold fileBlock
    rw [hread]
    simp only [String.append_assoc]

/-- C7 witness: a one-file run whose only read fails with "denied" still
produces a digest containing the placeholder block. -/
theorem c7_witness :
    ∃ d, (runMain (Option.some "root") "digest.txt" 100
        [Except.ok ⟨["a.txt"], true, Except.ok 1⟩]
        (fun _ => Except.error "denied")).result =
        MainResult.success (Option.some d) ∧
      ∃ pre post,
        d = pre ++ fileBlock (fun _ => Except.error "denied") ["a.txt"] ++ post ∧
        fileBlock (fun _ => Except.error "denied") ["a.txt"] =
          sep60 ++ "\n" ++ "FILE: " ++ displayPath ["a.txt"] ++ "\n" ++ sep60 ++ "\n" ++
          "[Could not read file: " ++ "denied" ++ "]" ++ "\n\n\n" :=
  c7_read_error_placeholder rfl (List.mem_singleton_self _) rfl

/-- C8: an error yielded by the traversal aborts the whole run with an
error; the output file is never created (creation happens only after the
loop completes, and an error result is not a success). -/
theorem c8_traversal_error_aborts {rootFileName : Option String} {output : String}
    {ms : Nat} {es : List (Except String Entry)}
    {reads : FilePath' → Except String String} {msg : String}
    (hmem : Except.error msg ∈ es) :
    ∃ m, (runMain rootFileName output ms es reads).result = MainResult.error m ∧
      ∀ d, (runMain rootFileName output ms es reads).result ≠
        MainResult.success d := by
  obtain ⟨m, hm⟩ := @processEntries_error_of_mem ms es msg hmem
  have hres : (runMain rootFileName output ms es reads).result = MainResult.error m := by
    simp only [runMain]
    rw [hm]
  refine ⟨m, hres, ?_⟩
  intro d hcontra
  rw [hres] at hcontra
  exact MainResult.noConfusion hcontra

/-- C8 witness: a stream holding one traversal error makes the run
error out without any written output. -/
theorem c8_witness :
    ∃ m, (runMain (Option.some "root") "digest.txt" 100
        [Except.error "walk failed"] (fun _ => Except.ok "")).result =
        MainResult.error m ∧
      ∀ d, (runMain (Option.some "root") "digest.txt" 100
        [Except.error "walk failed"] (fun _ => Except.ok "")).result ≠
        MainResult.success d :=
  c8_traversal_error_aborts (List.mem_singleton_self _)

/-- C9: when discovery yields no files the run prints the no-files message
and returns success without creating any output file. -/
theorem c9_empty_discovery {rootFileName : Option String} {output : String}
    {ms : Nat} {es : List (Except String Entry)}
    {reads : FilePath' → Except String String} {t c : List FilePath'}
    (h : (processEntries ms es).2 = Except.ok (t, c)) (ht : t = []) :
    (runMain rootFileName output ms es reads).result =
      MainResult.success Option.none ∧
    noFilesMsg ∈ (runMain rootFileName output ms es reads).stdout := by
  subst ht
  constructor
  · simp only [runMain]
    rw [h]
    rfl
  · simp only [runMain]
    rw [h]
    simp [show sortPaths ([] : List FilePath') = [] from rfl]

/-- C9 witness: an empty walker stream exits successfully with the
message and no output. -/
theorem c9_witness :
    (runMain (Option.some "root") "digest.txt" 100 []
        (fun _ => Except.ok "")).result = MainResult.success Option.none ∧
    noFilesMsg ∈ (runMain (Option.some "root") "digest.txt" 100 []
        (fun _ => Except.ok "")).stdout :=
  c9_empty_discovery rfl rfl

/-- C10: when the canonicalized root has no final path component (e.g.
`/`), `generate_tree` unwraps `None` and panics, so a run with non-empty
discovery panics instead of exiting with a descriptive error. -/
theorem c10_rootless_panics {output : String} {ms : Nat}
    {es : List (Except String Entry)} {reads : FilePath' → Except String String}
    {t c : List FilePath'}
    (h : (processEntries ms es).2 = Except.ok (t, c)) (ht : t ≠ []) :
    generate_tree Option.none (sortPaths t) = Option.none ∧
    (runMain Option.none output ms es reads).result = MainResult.panicked := by
  refine ⟨rfl, ?_⟩
  simp only [runMain]
  rw [h]
  have hs : (sortPaths t).isEmpty = false :=
    List.isEmpty_eq_false.mpr (fun hh => ht (sortPaths_eq_nil_iff.mp hh))
  simp [hs, generate_tree]

/-- C10 witness: one discovered file under a rootless root makes the run
panic. -/
theorem c10_witness :
    generate_tree Option.none (sortPaths [(["a.txt"] : FilePath')]) = Option.none ∧
    (runMain Option.none "digest.txt" 100
        [Except.ok ⟨["a.txt"], true, Except.ok 1⟩]
        (fun _ => Except.ok "hello")).result = MainResult.panicked :=
  c10_rootless_panics rfl (by simp)

end RustIngest
